import Mathlib

/-!
Shallow embedding of the matching engine and sync reconciler of
src/m3u2spotify/spotify.py, together with theorems settling the
specification claims about it.

Strings are modeled as lists of characters ('Str' below), and the numbers
that the source manipulates as Python floats (track durations divided by
1000, song lengths) are modeled as exact rationals represented by an
explicit numerator/denominator pair ('Frac' below) so that every
comparison the code performs is computable by the kernel.  All values
exercised in this development are exactly representable, so no float
rounding behavior is lost.  Python str.lower is modeled on the ASCII
range, which covers every character the claims and the source's marker
words involve.
-/

abbrev Str := List Char

/-! ## Exact rational pairs for the source's float arithmetic -/

/-- An exact rational num/den.  Every value built by the embedding has a
positive denominator. -/
structure Frac where
  num : Int
  den : Nat
deriving DecidableEq, Repr

/-- Exact subtraction by cross multiplication. -/
def Frac.sub (a b : Frac) : Frac :=
  ⟨a.num * (b.den : Int) - b.num * (a.den : Int), a.den * b.den⟩

/-- Absolute value. -/
def Frac.abs (a : Frac) : Frac :=
  ⟨if a.num < 0 then - a.num else a.num, a.den⟩

/-- Strict comparison by cross multiplication. -/
def Frac.blt (a b : Frac) : Bool :=
  decide (a.num * (b.den : Int) < b.num * (a.den : Int))

/-- Non-strict comparison by cross multiplication. -/
def Frac.ble (a b : Frac) : Bool :=
  decide (a.num * (b.den : Int) ≤ b.num * (a.den : Int))

/-- An integer as a Frac. -/
def intF (n : Int) : Frac := ⟨n, 1⟩

/-- The source's expression track duration_ms / 1000: milliseconds to
seconds, exactly. -/
def secondsOfMs (ms : Int) : Frac := ⟨ms, 1000⟩

/-! ## Python string primitives on Str -/

/-- Does the second list start with the first (pattern, then text)? -/
def startsWith : Str → Str → Bool
  | [], _ => true
  | _ :: _, [] => false
  | p :: ps, c :: cs => p = c && startsWith ps cs

/-- Python substring containment: pat in s. -/
def hasSub (pat : Str) : Str → Bool
  | [] => startsWith pat []
  | c :: cs => startsWith pat (c :: cs) || hasSub pat cs

/-- Worker for replaceAll.  The counter holds how many characters of an
already-matched occurrence remain to be consumed, so that scanning
resumes after the occurrence, as Python's non-overlapping left-to-right
replace does. -/
def replaceGo (pat rep : Str) : Str → Nat → Str
  | [], _ => []
  | _ :: cs, skip + 1 => replaceGo pat rep cs skip
  | c :: cs, 0 =>
    if startsWith pat (c :: cs) then rep ++ replaceGo pat rep cs (pat.length - 1)
    else c :: replaceGo pat rep cs 0

/-- Python str.replace: replace every non-overlapping occurrence of pat by
rep, scanning left to right.  The sources never call replace with an
empty pattern. -/
def replaceAll (pat rep s : Str) : Str :=
  match pat with
  | [] => s
  | _ :: _ => replaceGo pat rep s 0

/-- Worker for splitFirst, specialised to a nonempty pattern. -/
def splitGo (p : Char) (ps : Str) : Str → Str
  | [] => []
  | c :: cs => if startsWith (p :: ps) (c :: cs) then [] else c :: splitGo p ps cs

/-- Python s.split(pat)[0]: the part of s before the first occurrence of
pat, or all of s when pat does not occur. -/
def splitFirst (pat s : Str) : Str :=
  match pat with
  | [] => s
  | p :: ps => splitGo p ps s

/-- Python s.split(' '): split on every single space, keeping empty
fields; the empty string yields one empty field. -/
def splitSp : Str → List Str
  | [] => [[]]
  | d :: ds =>
    let r := splitSp ds
    if d = ' ' then [] :: r
    else
      match r with
      | w :: ws => (d :: w) :: ws
      | [] => [[d]]

/-- ASCII model of Python str.lower for one character. -/
def lowerChar (c : Char) : Char :=
  if 65 ≤ c.toNat ∧ c.toNat ≤ 90 then Char.ofNat (c.toNat + 32) else c

/-- ASCII model of Python str.lower. -/
def lowerStr (s : Str) : Str := s.map lowerChar

/-- The character class kept by the regex "[^A-Za-z0-9']+" of clean_tags. -/
def isKept (c : Char) : Bool :=
  (65 ≤ c.toNat && c.toNat ≤ 90) || (97 ≤ c.toNat && c.toNat ≤ 122) ||
    (48 ≤ c.toNat && c.toNat ≤ 57) || c = '\''

/-- Worker for collapse; the flag records whether the previous character
belonged to a run of non-kept characters already replaced by one space. -/
def collapseGo : Bool → Str → Str
  | _, [] => []
  | inRun, c :: cs =>
    if isKept c then c :: collapseGo false cs
    else if inRun then collapseGo true cs
    else ' ' :: collapseGo true cs

/-- Python re.sub("[^A-Za-z0-9']+", ' ', s): every maximal run of
characters outside the kept class becomes a single space. -/
def collapse (s : Str) : Str := collapseGo false s

/-- Worker for strip: drop trailing spaces. -/
def trimEnd : Str → Str
  | [] => []
  | c :: cs =>
    match trimEnd cs with
    | [] => if c = ' ' then [] else [c]
    | r => c :: r

/-- Python str.strip as applied by clean_tags: it always runs on a
collapse output, whose only whitespace character is ' '. -/
def strip (s : Str) : Str := trimEnd (s.dropWhile (fun c => c = ' '))

/-- In the source regex "[\\(\\[].*?[\\)\\]]" the non-greedy body cannot
cross a newline, so a match extends from an opening bracket to the first
closing bracket that appears before any newline.  This helper walks to
that closer and returns the remainder, or none when no such closer
exists. -/
def takeAfterCloser : Str → Option Str
  | [] => none
  | d :: ds =>
    if d = ')' ∨ d = ']' then some ds
    else if d = '\n' then none
    else takeAfterCloser ds

/-- Worker for stripBrackets.  The counter holds how many characters of a
bracketed span already recognised remain to be discarded. -/
def sbGo : Str → Nat → Str
  | [], _ => []
  | _ :: cs, skip + 1 => sbGo cs skip
  | c :: cs, 0 =>
    if c = '(' ∨ c = '[' then
      match takeAfterCloser cs with
      | some rest => sbGo cs (cs.length - rest.length)
      | none => c :: sbGo cs 0
    else c :: sbGo cs 0

/-- Python re.sub("[\\(\\[].*?[\\)\\]]", "", s): remove each leftmost,
shortest bracketed span; an opener with no reachable closer is kept. -/
def stripBrackets (s : Str) : Str := sbGo s 0

/-! ## The normalizer clean_tags (spotify.py lines 218-243) -/

/-- Title branch of clean_tags, in the source's exact operation order. -/
def cleanTitle (t : Str) : Str :=
  let t1 := stripBrackets t
  let t2 := replaceAll ("part ".toList) (" ".toList) t1
  let t3 := replaceAll ("the ".toList) (" ".toList) t2
  let t4 := lowerStr t3
  let t5 := replaceAll ("featuring".toList) [] t4
  let t6 := splitFirst ("feat.".toList) t5
  let t7 := splitFirst ("ft.".toList) t6
  let t8 := splitFirst (" / ".toList) t7
  strip (collapse t8)

/-- Artist branch of clean_tags, in the source's exact operation order. -/
def cleanArtist (a : Str) : Str :=
  let a1 := stripBrackets a
  let a2 := replaceAll ("the ".toList) (" ".toList) a1
  let a3 := lowerStr a2
  let a4 := replaceAll (" featuring".toList) [] a3
  let a5 := splitFirst (" feat.".toList) a4
  let a6 := splitFirst (" ft.".toList) a5
  let a7 := splitFirst ("&".toList) a6
  let a8 := splitFirst (" and ".toList) a7
  let a9 := splitFirst (" vs".toList) a8
  strip (collapse a9)

/-- Album branch of clean_tags, in the source's exact operation order. -/
def cleanAlbum (al : Str) : Str :=
  let b1 := splitFirst ("-".toList) al
  let b2 := lowerStr b1
  let b3 := replaceAll ("ep".toList) [] b2
  let b4 := stripBrackets b3
  let b5 := replaceAll ("the ".toList) (" ".toList) b4
  strip (collapse b5)

/-- The field kinds clean_tags can be asked to normalize. -/
inductive FieldKind
  | title
  | artist
  | album
deriving DecidableEq

/-- clean_tags(song, tags): returns the (title, artist, album) triple with
the requested fields normalized and the others passed through raw. -/
def clean_tags (title artist album : Str) (tags : List FieldKind) : Str × Str × Str :=
  ( if FieldKind.title ∈ tags then cleanTitle title else title,
    if FieldKind.artist ∈ tags then cleanArtist artist else artist,
    if FieldKind.album ∈ tags then cleanAlbum album else album )

/-- The spec's normalize(text, field_kind) is the corresponding component
of clean_tags. -/
def normalizeTag (x : Str) : FieldKind → Str
  | FieldKind.title => cleanTitle x
  | FieldKind.artist => cleanArtist x
  | FieldKind.album => cleanAlbum x

/-! ## Data model -/

/-- One element of a track's artists array.  In the source this is a JSON
mapping; the only field the code reads is name. -/
structure ArtistRec where
  name : Str
deriving DecidableEq, Repr

/-- A candidate record from catalog search, with the fields the matcher
reads: track.name, track.artists, track.album.name,
track.album.release_date, track.duration_ms (an integer of milliseconds)
and track.uri. -/
structure Track where
  name : Str
  artists : List ArtistRec
  album_name : Str
  release_date : Str
  duration_ms : Int
  uri : Str
deriving DecidableEq, Repr

/-- A local song record.  The two-level option on uri and old_uri models
the Python dict: none is an absent key, some none a key holding None, and
some (some u) a key holding the string u. -/
structure Song where
  title : Str
  artist : Str
  album : Str
  length : Frac
  year : Nat
  uri : Option (Option Str) := none
  old_uri : Option (Option Str) := none
  playlist : Option Str := none
deriving DecidableEq, Repr

/-- A remote playlist as stored by get_spotify_metadata: its tracks href
and its track list. -/
structure Playlist where
  url : Str
  tracks : List Track
deriving DecidableEq, Repr

/-- Python song.get(key, None) for the two-level uri encoding. -/
def pyGet : Option (Option Str) → Option Str
  | none => none
  | some v => v

/-- The source's per-field karaoke marker words. -/
def karaokeWords : List Str := ["karaoke".toList, "backing".toList]

/-- The key set of an ArtistRec viewed as the Python mapping it models.
The source's artist objects are JSON mappings of fixed metadata field
names; the embedding keeps the one field the code reads. -/
def artistRecKeys : List Str := ["name".toList]

/-- Python membership w in artist_ where artist_ is a mapping: true when
w equals one of the mapping's keys. -/
def pyDictContains (w : Str) : Bool := decide (w ∈ artistRecKeys)

/-- int(re.sub('[^0-9]', '', release_date)[:4]): keep the digits, take the
first four, read them as a number.  The source would raise on a date with
no digits at all; the embedding is only used on dates that have some. -/
def yearOf (rd : Str) : Nat :=
  ((rd.filter (fun c => c.isDigit)).take 4).foldl (fun acc c => 10 * acc + (c.toNat - 48)) 0

/-- abs(track.duration_ms / 1000 - song.length), the quantity the scorer
compares against 20 and against the running minimum. -/
def lengthDiff (song : Song) (track : Track) : Frac :=
  Frac.abs (Frac.sub (secondsOfMs track.duration_ms) song.length)

/-- all(word in name for word in key.split(' ')): every space-separated
token of the key occurs as a substring of name. -/
def tokensAllIn (key name : Str) : Bool :=
  (splitSp key).all (fun w => hasSub w name)

/-- song with song.uri set to the given track uri string. -/
def setUri (song : Song) (u : Str) : Song := { song with uri := some (some u) }

/-- all(word not in track.album.name.lower() for word in
['karaoke', 'backing']), the album half of the karaoke guard, identical
in both phases. -/
def albumNotKaraoke (track : Track) : Bool :=
  karaokeWords.all (fun w => ! hasSub w (lowerStr track.album_name))

/-! ## Phase 1, strong_match (spotify.py lines 245-262) -/

/-- The inner artist loop of strong_match (lines 252-257).  Each
iteration computes the cleaned artist name (line 254) but never uses it;
the karaoke test of line 255 asks whether the words are keys of the
artist_ mapping, and breaks out as soon as not_karaoke is false. -/
def strongArtistLoop (nk : Bool) : List ArtistRec → Bool
  | [] => nk
  | _ :: rest =>
    let nk2 := nk && karaokeWords.all (fun w => ! pyDictContains w)
    if ! nk2 then nk2 else strongArtistLoop nk2 rest

/-- The per-candidate acceptance test of strong_match: any of time_match,
album_match, year_match, and not_karaoke. -/
def strongAccept (song : Song) (track : Track) : Bool :=
  let time_match := Frac.ble (lengthDiff song track) (intF 20)
  let album_match := hasSub (lowerStr song.album) (lowerStr track.album_name)
  let year_match := decide (song.year = yearOf track.release_date)
  let not_karaoke := strongArtistLoop (albumNotKaraoke track) track.artists
  (time_match || album_match || year_match) && not_karaoke

/-- strong_match: first candidate in catalog order passing strongAccept
gets its uri written into the song, which is returned; otherwise None. -/
def strong_match (song : Song) : List Track → Option Song
  | [] => none
  | track :: rest =>
    if strongAccept song track then some (setUri song track.uri)
    else strong_match song rest

/-! ## Phase 2, weak_match (spotify.py lines 264-288) -/

/-- The inner artist loop of weak_match (lines 275-283), returning the
final (artist_match, not_karaoke) pair.  artist_match is recomputed from
each artist's cleaned name; the karaoke test again asks whether the words
are keys of the artist_ mapping; the loop breaks when artist_match holds
or not_karaoke fails. -/
def weakArtistLoop (am nk : Bool) (artist : Str) : List ArtistRec → Bool × Bool
  | [] => (am, nk)
  | a :: rest =>
    let artist_name := cleanArtist a.name
    let am2 := tokensAllIn artist artist_name
    let nk2 := nk && karaokeWords.all (fun w => ! pyDictContains w)
    if am2 || ! nk2 then (am2, nk2) else weakArtistLoop am2 nk2 artist rest

/-- The candidate scan of weak_match, carrying the song being mutated and
the running minimum (initialized to 600 by the caller). -/
def weakLoop (title artist : Str) : Song → Frac → List Track → Song
  | song, _, [] => song
  | song, minDiff, track :: rest =>
    let track_name := cleanTitle track.name
    let title_match := tokensAllIn title track_name
    let length_diff := lengthDiff song track
    let amnk := weakArtistLoop true (albumNotKaraoke track) artist track.artists
    if (amnk.1 || title_match) && Frac.blt length_diff minDiff && amnk.2 then
      weakLoop title artist (setUri song track.uri) length_diff rest
    else
      weakLoop title artist song minDiff rest

/-- weak_match mutates the song in place and returns song.get('uri',
None); the embedding returns the updated song together with that return
value. -/
def weak_match (song : Song) (tracks : List Track) (title artist : Str) :
    Song × Option Str :=
  let song2 := weakLoop title artist song (intF 600) tracks
  (song2, pyGet song2.uri)

/-! ## get_uri (spotify.py lines 190-212) -/

/-- get_uri, with the catalog search collaborator passed as a function.
The returned song is the same object the source mutates through the
phases; the fourth phase's weak_match return value is discarded but its
mutation of the song is kept. -/
def get_uri (search : Str → List Track) (song : Song) : Song :=
  let tc := cleanTitle song.title
  let ac := cleanArtist song.artist
  let alc := cleanAlbum song.album
  let r1 := search (tc ++ ' ' :: ac)
  let r2 := if r1 = [] ∧ alc.take 9 ≠ ("downloads".toList) then search (tc ++ ' ' :: alc) else r1
  let r3 := if r2 = [] then search tc else r2
  match strong_match song r3 with
  | some s => s
  | none =>
    let rt := search tc
    match strong_match song rt with
    | some s => s
    | none =>
      let p := weak_match song r3 tc ac
      match p.2 with
      | some _ => p.1
      | none => (weak_match p.1 rt tc ac).1

/-! ## update_uris (spotify.py lines 103-129) -/

/-- The per-song body of update_uris' inner loop: when the song has a uri
key whose value is not among the remote playlist's uris (plus None), scan
the remote tracks for the first title-token match whose uri is not in the
m3u_uris snapshot, and rewrite the song.  The returned flag records
whether the song was appended to updated_uris. -/
def rematchSong (name : Str) (m3uUris spotifyUris : List (Option Str))
    (tracks : List Track) (song : Song) : Song × Bool :=
  match song.uri with
  | none => (song, false)
  | some u =>
    if u ∈ spotifyUris then (song, false)
    else
      let title := cleanTitle song.title
      match tracks.find? (fun tr =>
          tokensAllIn title (cleanTitle tr.name) && ! decide ((some tr.uri) ∈ m3uUris)) with
      | some tr =>
        ({ song with playlist := some name, old_uri := some u, uri := some (some tr.uri) }, true)
      | none => (song, false)

/-- One playlist's pass of update_uris: the spotify_uris list gains a
trailing None as in the source, and the m3u_uris snapshot is computed
once, before any song is rewritten. -/
def rematchPlaylist (name : Str) (songs : List Song) (pl : Playlist) :
    List Song × List Song :=
  let spotifyUris := pl.tracks.map (fun tr => some tr.uri) ++ [none]
  let m3uUris := songs.filterMap (fun s => s.uri)
  let pairs := songs.map (rematchSong name m3uUris spotifyUris pl.tracks)
  (pairs.map Prod.fst, (pairs.filter Prod.snd).map Prod.fst)

/-- Name lookup in the remote playlist mapping. -/
def lookupPl (spotify : List (Str × Playlist)) (name : Str) : Option Playlist :=
  (spotify.find? (fun p => p.1 = name)).map Prod.snd

/-- update_uris over the ordered m3u mapping: playlists absent from the
remote set are skipped; the result is the rewritten mapping together with
the updated_uris list the source returns. -/
def update_uris (m3u : List (Str × List Song)) (spotify : List (Str × Playlist)) :
    List (Str × List Song) × List Song :=
  match m3u with
  | [] => ([], [])
  | (name, songs) :: rest =>
    match lookupPl spotify name with
    | some pl =>
      let q := rematchPlaylist name songs pl
      let r := update_uris rest spotify
      ((name, q.1) :: r.1, q.2 ++ r.2)
    | none =>
      let r := update_uris rest spotify
      ((name, songs) :: r.1, r.2)

/-! ## update_playlist (spotify.py lines 131-155) -/

/-- uri_list[limit * i : limit * (i + 1)] for i in
range(len(uri_list) // limit + 1): the batches one playlist's POST loop
submits, in order. -/
def chunkList (uris : List (Option Str)) (limit : Nat) : List (List (Option Str)) :=
  (List.range (uris.length / limit + 1)).map (fun i => (uris.drop (limit * i)).take limit)

/-- The observable effect of update_playlist on one playlist: which name
was acted on, whether the create branch ran, and the submitted batches. -/
structure WriteCall where
  name : Str
  created : Bool
  posts : List (List (Option Str))
deriving DecidableEq, Repr

/-- update_playlist walks reversed(m3u.items()); for a known playlist it
posts the local uris that are present and not already in the remote
playlist (None is in the remote list, so unresolved songs are dropped
there too), and for an unknown one it creates the playlist and posts all
non-None uris.  Batching is chunkList. -/
def update_playlist (m3u : List (Str × List Song)) (spotify : List (Str × Playlist))
    (limit : Nat) : List WriteCall :=
  m3u.reverse.map (fun p =>
    match lookupPl spotify p.1 with
    | some pl =>
      let spotifyUris := pl.tracks.map (fun tr => some tr.uri) ++ [none]
      let uriList := p.2.filterMap (fun s =>
        match s.uri with
        | some u => if u ∈ spotifyUris then none else some u
        | none => none)
      ⟨p.1, false, chunkList uriList limit⟩
    | none =>
      let uriList := p.2.filterMap (fun s =>
        match s.uri with
        | some (some x) => some (some x)
        | _ => none)
      ⟨p.1, true, chunkList uriList limit⟩)

/-! ## Concrete records used by the claim theorems and witnesses -/

/-- Song for the karaoke-artist divergence: plain metadata, no uri yet. -/
def c1song : Song :=
  { title := "foo".toList, artist := "bar".toList, album := "zzz".toList,
    length := intF 100, year := 2020 }

/-- Candidate whose only artist is named Karaoke Masters, whose album is
clean, and whose duration is within 20 seconds of c1song's length. -/
def c1track : Track :=
  { name := "foo".toList, artists := [⟨"Karaoke Masters".toList⟩],
    album_name := "Great Hits".toList, release_date := "1999-01-01".toList,
    duration_ms := 100000, uri := "k".toList }

/-- Song whose all-punctuation title normalizes to the empty key. -/
def c2song : Song :=
  { title := "???".toList, artist := "a".toList, album := "zzz".toList,
    length := intF 200, year := 2020 }

/-- Candidate whose duration coincides with c2song's within 20 seconds
while album and year do not match and no karaoke words occur. -/
def c2track : Track :=
  { name := "Song".toList, artists := [⟨"x".toList⟩],
    album_name := "bbb".toList, release_date := "1999".toList,
    duration_ms := 205000, uri := "t2".toList }

/-- Song for the get_uri fourth-phase scenario. -/
def c10song : Song :=
  { title := "hello".toList, artist := "world".toList, album := "zzz".toList,
    length := intF 100, year := 2000 }

/-- Candidate returned for the title+artist query: fails strong_match
(duration 400 s off, album and year mismatch) and weak_match (neither
title tokens nor artist tokens contained). -/
def c10x : Track :=
  { name := "qqq".toList, artists := [⟨"rrr".toList⟩],
    album_name := "aaa".toList, release_date := "1999-01-01".toList,
    duration_ms := 500000, uri := "x".toList }

/-- Candidate returned for the title-only query: fails strong_match
(duration 30 s off, album and year mismatch) but passes weak_match by
title tokens. -/
def c10y : Track :=
  { name := "hello".toList, artists := [⟨"nobody".toList⟩],
    album_name := "bbb".toList, release_date := "1980".toList,
    duration_ms := 130000, uri := "y".toList }

/-- Catalog collaborator for the get_uri scenario. -/
def c10search (q : Str) : List Track :=
  if q = ("hello world".toList) then [c10x]
  else if q = ("hello".toList) then [c10y] else []

/-- First local song holding a stale uri. -/
def c7s1 : Song :=
  { title := "Song".toList, artist := "a1".toList, album := "al".toList,
    length := intF 100, year := 2000, uri := some (some ("old1".toList)) }

/-- Second local song holding a different stale uri. -/
def c7s2 : Song :=
  { title := "Song".toList, artist := "a2".toList, album := "al".toList,
    length := intF 100, year := 2000, uri := some (some ("old2".toList)) }

/-- The single remote track both stale songs title-match. -/
def c7track : Track :=
  { name := "Song".toList, artists := [⟨"a1".toList⟩],
    album_name := "al".toList, release_date := "2000".toList,
    duration_ms := 100000, uri := "t".toList }

/-- The remote playlist for the update_uris scenario. -/
def c7pl : Playlist := ⟨"url".toList, [c7track]⟩

/-- No two adjacent spaces. -/
def noDbl : Str → Bool
  | [] => true
  | [_] => true
  | a :: b :: r => ! (decide (a = ' ') && decide (b = ' ')) && noDbl (b :: r)

/-- The head, if any, is not a space. -/
def headNS : Str → Bool
  | [] => true
  | d :: _ => ! decide (d = ' ')

/-- Every character is in the kept class or is a space. -/
def keptOK (s : Str) : Prop := ∀ c ∈ s, isKept c = true ∨ c = ' '

/-- Every character is fixed by lower-casing. -/
def lcOK (s : Str) : Prop := ∀ c ∈ s, lowerChar c = c

/-- The marker substrings whose survival in a key makes a second
normalization pass differ from the first. -/
def markerWords : FieldKind → List Str
  | FieldKind.title => ["part ".toList, "the ".toList, "featuring".toList]
  | FieldKind.artist => ["the ".toList, " featuring".toList, " and ".toList, " vs".toList]
  | FieldKind.album => ["ep".toList, "the ".toList]

/-- Song for the time-only strong match scenario. -/
def c6song : Song :=
  { title := "tune".toList, artist := "band".toList, album := "zzz".toList,
    length := intF 100, year := 2020 }

/-- Candidate with duration within 20 seconds of c6song, album not
containing the song's album, mismatching year and no karaoke terms. -/
def c6track : Track :=
  { name := "tune".toList, artists := [⟨"band".toList⟩],
    album_name := "Album B".toList, release_date := "1999".toList,
    duration_ms := 110000, uri := "u6".toList }

/-- Song for the running-minimum witness: length 100 seconds. -/
def w4song : Song :=
  { title := "Song".toList, artist := "x".toList, album := "zzz".toList,
    length := intF 100, year := 2020 }

/-- Qualifying candidate at 5 seconds difference. -/
def w4t1 : Track :=
  { name := "Song".toList, artists := [⟨"someone".toList⟩],
    album_name := "A1".toList, release_date := "2001".toList,
    duration_ms := 105000, uri := "u1".toList }

/-- Qualifying candidate at 2 seconds difference. -/
def w4t2 : Track :=
  { name := "Song".toList, artists := [⟨"someone".toList⟩],
    album_name := "A2".toList, release_date := "2002".toList,
    duration_ms := 102000, uri := "u2".toList }

/-- The value update_uris rewrites c7s1 into. -/
def w7s : Song :=
  { title := "Song".toList, artist := "a1".toList, album := "al".toList,
    length := intF 100, year := 2000, uri := some (some ("t".toList)),
    old_uri := some (some ("old1".toList)), playlist := some ("P".toList) }

/-- A song entering get_uri already resolved. -/
def w10song : Song :=
  { title := "t".toList, artist := "a".toList, album := "b".toList,
    length := intF 1, year := 1, uri := some (some ("q".toList)) }

/-- A resolved song for the batching scenario. -/
def c8song : Song :=
  { title := [], artist := [], album := [], length := intF 0, year := 0,
    uri := some (some ("u".toList)) }

/-! ## Helper lemmas about the matcher -/

/-- The artist loop of strong_match never changes not_karaoke: the
karaoke words are tested against the artist mapping's keys, none of which
is a karaoke word. -/
theorem strongArtistLoop_eq (nk : Bool) : ∀ arts, strongArtistLoop nk arts = nk := by
  intro arts
  induction arts with
  | nil => rfl
  | cons a rest ih =>
    have hk : karaokeWords.all (fun w => ! pyDictContains w) = true := by decide
    simp only [strongArtistLoop, hk, Bool.and_true]
    cases nk with
    | false => simp
    | true => simpa using ih

/-- The artist loop of weak_match returns the not_karaoke value it was
given, for the same reason. -/
theorem weakArtistLoop_snd (artist : Str) :
    ∀ (arts : List ArtistRec) (am nk : Bool), (weakArtistLoop am nk artist arts).2 = nk := by
  intro arts
  induction arts with
  | nil => intro am nk; rfl
  | cons a rest ih =>
    intro am nk
    have hk : karaokeWords.all (fun w => ! pyDictContains w) = true := by decide
    simp only [weakArtistLoop, hk, Bool.and_true]
    split
    · rfl
    · exact ih _ nk

/-- The empty pattern is a substring of everything, as in Python. -/
theorem hasSub_nil : ∀ name : Str, hasSub [] name = true := by
  intro name
  cases name <;> simp [hasSub, startsWith]

/-- Every token of the empty key is contained in any name: the empty key
splits into one empty token. -/
theorem tokensAllIn_nil (name : Str) : tokensAllIn [] name = true := by
  simp [tokensAllIn, splitSp, hasSub_nil]

/-- Cross-multiplication comparison is asymmetric. -/
theorem Frac.blt_asymm {a b : Frac} (h : Frac.blt a b = true) : Frac.blt b a = false := by
  simp only [Frac.blt, decide_eq_true_eq] at h
  simp only [Frac.blt, decide_eq_false_iff_not]
  omega

/-- A song rewrite does not change the length the scorer compares. -/
theorem lengthDiff_setUri (song : Song) (u : Str) (t : Track) :
    lengthDiff (setUri song u) t = lengthDiff song t := rfl

/-- strong_match is selection of the first candidate passing
strongAccept, in list order. -/
theorem strong_match_eq_find (song : Song) :
    ∀ tracks : List Track,
      strong_match song tracks =
        (tracks.find? (strongAccept song)).map (fun t => setUri song t.uri) := by
  intro tracks
  induction tracks with
  | nil => rfl
  | cons t rest ih =>
    simp only [strong_match, List.find?]
    cases h : strongAccept song t with
    | false => simpa [h] using ih
    | true => simp [h]

/-- A successful strong_match returns the given song with some
candidate's uri written in. -/
theorem strong_match_some {song : Song} :
    ∀ {ts : List Track} {s2 : Song},
      strong_match song ts = some s2 → ∃ t : Track, s2 = setUri song t.uri := by
  intro ts
  induction ts with
  | nil => intro s2 h; simp [strong_match] at h
  | cons t rest ih =>
    intro s2 h
    simp only [strong_match] at h
    split at h
    · exact ⟨t, (Option.some.injEq _ _ ▸ h).symm⟩
    · exact ih h

/-- If no remaining candidate beats the running minimum, the scan leaves
the song unchanged. -/
theorem weakLoop_skip (title artist : Str) :
    ∀ (ts : List Track) (song : Song) (minDiff : Frac),
      (∀ t ∈ ts, Frac.blt (lengthDiff song t) minDiff = false) →
      weakLoop title artist song minDiff ts = song := by
  intro ts
  induction ts with
  | nil => intro song minDiff _; rfl
  | cons t rest ih =>
    intro song minDiff h
    have ht : Frac.blt (lengthDiff song t) minDiff = false := h t (by simp)
    simp only [weakLoop, ht, Bool.and_false, Bool.false_and, Bool.false_eq_true, if_false]
    exact ih song minDiff (fun t2 h2 => h t2 (by simp [h2]))

/-- A qualifying candidate that beats the running minimum and every
earlier candidate's difference ends up selected, wherever the scan
started. -/
theorem weakLoop_min (title artist : Str) (t : Track)
    (h1 : tokensAllIn title (cleanTitle t.name) = true)
    (h2 : albumNotKaraoke t = true) :
    ∀ (ts : List Track) (song : Song) (minDiff : Frac),
      Frac.blt (lengthDiff song t) minDiff = true →
      (∀ t2 ∈ ts, Frac.blt (lengthDiff song t) (lengthDiff song t2) = true) →
      (weakLoop title artist song minDiff (ts ++ [t])).uri = some (some t.uri) := by
  intro ts
  induction ts with
  | nil =>
    intro song minDiff hm _
    simp only [List.nil_append, weakLoop, h1, h2, hm, weakArtistLoop_snd, Bool.or_true,
      Bool.true_and, Bool.and_true, if_true]
    rfl
  | cons t2 rest ih =>
    intro song minDiff hm hall
    simp only [List.cons_append, weakLoop]
    split
    · exact ih (setUri song t2.uri) (lengthDiff song t2) (hall t2 (by simp))
        (fun t3 h3 => hall t3 (by simp [h3]))
    · exact ih song minDiff hm (fun t3 h3 => hall t3 (by simp [h3]))

/-- The scan either leaves the uri alone or writes some candidate's uri;
it never clears one. -/
theorem weakLoop_uri_cases (title artist : Str) :
    ∀ (ts : List Track) (song : Song) (minDiff : Frac),
      (weakLoop title artist song minDiff ts).uri = song.uri ∨
        ∃ v, (weakLoop title artist song minDiff ts).uri = some (some v) := by
  intro ts
  induction ts with
  | nil => intro song minDiff; exact Or.inl rfl
  | cons t rest ih =>
    intro song minDiff
    simp only [weakLoop]
    split
    · rcases ih (setUri song t.uri) (lengthDiff song t) with h | h
      · exact Or.inr ⟨t.uri, h⟩
      · exact Or.inr h
    · exact ih song minDiff

/-- Reading a present uri value through song.get. -/
theorem pyGet_eq_some {o : Option (Option Str)} {x : Str}
    (h : pyGet o = some x) : o = some (some x) := by
  cases o with
  | none => simp [pyGet] at h
  | some v => simp only [pyGet] at h; rw [h]

/-- When the per-song rematch fires, the new uri comes from a remote
track that is not in the m3u_uris snapshot. -/
theorem rematchSong_flag {name : Str} {m3uUris spotifyUris : List (Option Str)}
    {tracks : List Track} {song : Song}
    (h : (rematchSong name m3uUris spotifyUris tracks song).2 = true) :
    ∃ u, (rematchSong name m3uUris spotifyUris tracks song).1.uri = some (some u) ∧
      (some u) ∉ m3uUris := by
  cases hu : song.uri with
  | none => simp [rematchSong, hu] at h
  | some u =>
    by_cases hsp : u ∈ spotifyUris
    · simp [rematchSong, hu, hsp] at h
    · cases hf : tracks.find? (fun tr =>
          tokensAllIn (cleanTitle song.title) (cleanTitle tr.name) &&
            ! decide ((some tr.uri) ∈ m3uUris)) with
      | none => simp [rematchSong, hu, hsp, hf] at h
      | some tr =>
        refine ⟨tr.uri, by simp [rematchSong, hu, hsp, hf], ?_⟩
        have hp := List.find?_some hf
        simp only [Bool.and_eq_true, Bool.not_eq_true', decide_eq_false_iff_not] at hp
        exact hp.2

/-- One accepted step of the weak scan, stated with the tail abstract. -/
theorem weakLoop_cons_accept (title artist : Str) (song : Song) (minDiff : Frac)
    (t : Track) (rest : List Track)
    (htm : tokensAllIn title (cleanTitle t.name) = true)
    (hnk : albumNotKaraoke t = true)
    (hlt : Frac.blt (lengthDiff song t) minDiff = true) :
    weakLoop title artist song minDiff (t :: rest) =
      weakLoop title artist (setUri song t.uri) (lengthDiff song t) rest := by
  simp only [weakLoop, htm, hnk, hlt, weakArtistLoop_snd, Bool.or_true, Bool.true_and,
    Bool.and_true, if_true]

/-- Two weak scans in sequence never lose a uri that was present before
the first. -/
theorem weak_twice_keeps (tc ac : Str) (r rt : List Track) (song : Song) (u : Str)
    (h : song.uri = some (some u)) :
    ∃ v, (weakLoop tc ac (weakLoop tc ac song (intF 600) r) (intF 600) rt).uri =
      some (some v) := by
  rcases weakLoop_uri_cases tc ac r song (intF 600) with h1 | ⟨v, h1⟩
  · rcases weakLoop_uri_cases tc ac rt (weakLoop tc ac song (intF 600) r) (intF 600) with
      h2 | ⟨w, h2⟩
    · exact ⟨u, by rw [h2, h1, h]⟩
    · exact ⟨w, h2⟩
  · rcases weakLoop_uri_cases tc ac rt (weakLoop tc ac song (intF 600) r) (intF 600) with
      h2 | ⟨w, h2⟩
    · exact ⟨v, by rw [h2, h1]⟩
    · exact ⟨w, h2⟩

/-- A song that enters get_uri with a string uri leaves it with a string
uri: no phase ever clears one. -/
theorem get_uri_keeps (search : Str → List Track) (song : Song) (u : Str)
    (h : song.uri = some (some u)) :
    ∃ v, (get_uri search song).uri = some (some v) := by
  simp only [get_uri, weak_match]
  split
  · rename_i s hs
    rcases strong_match_some hs with ⟨t, rfl⟩
    exact ⟨t.uri, rfl⟩
  · split
    · rename_i s hs
      rcases strong_match_some hs with ⟨t, rfl⟩
      exact ⟨t.uri, rfl⟩
    · split
      · rename_i x hx
        exact ⟨x, pyGet_eq_some hx⟩
      · exact weak_twice_keeps _ _ _ _ song u h

/-! ## Claim theorems -/

/-- C1: the karaoke guard's artist half is inert in the code: line 255
(and line 280) test the words against the artist mapping's keys instead
of the cleaned artist name computed on the line before, so a candidate
whose artist is named Karaoke Masters, with a clean album and a matching
duration, is selected by Phase 1, and Phase 2 selects it as well.  The
claim (and the spec's karaoke_guard) says such a candidate is never
selected. -/
theorem C1_karaoke_artist_selected :
    strong_match c1song [c1track] = some (setUri c1song ("k".toList)) ∧
      hasSub ("karaoke".toList) (lowerStr ("Karaoke Masters".toList)) = true ∧
      (weak_match c1song [c1track] (cleanTitle c1song.title) (cleanArtist c1song.artist)).2 =
        some ("k".toList) := by
  decide

/-- C2 counterexample: the all-punctuation title normalizes to the empty
key, yet get_uri resolves the song to the candidate's uri (Phase 1
accepts on duration alone), contradicting the claim that no candidate is
ever accepted and that the song resolves to uri = None. -/
theorem C2_counterexample :
    cleanTitle c2song.title = [] ∧
      (get_uri (fun _ => [c2track]) c2song).uri = some (some ("t2".toList)) := by
  decide

/-- C2 amended: a song whose title normalizes to the empty key is not
treated specially: Phase 1 never reads the title key and accepts any
non-karaoke candidate whose duration is within 20 seconds, and Phase 2's
title_match is vacuously true on the empty key because every token of
''.split(' ') is the empty string. -/
theorem C2_amended :
    cleanTitle ("???".toList) = [] ∧
      (∀ (song : Song) (track : Track) (rest : List Track),
          cleanTitle song.title = [] →
          Frac.ble (lengthDiff song track) (intF 20) = true →
          albumNotKaraoke track = true →
          strong_match song (track :: rest) = some (setUri song track.uri)) ∧
      ∀ name : Str, tokensAllIn [] name = true := by
  refine ⟨by decide, ?_, tokensAllIn_nil⟩
  intro song track rest _ htime halb
  simp only [strong_match, strongAccept, strongArtistLoop_eq, htime, halb, Bool.true_or,
    Bool.and_true, if_true]

/-- Witness for C2 amended, applying it to the concrete empty-key song
and duration-coinciding candidate. -/
theorem C2_amended_witness :
    strong_match c2song [c2track] = some (setUri c2song ("t2".toList)) :=
  C2_amended.2.1 c2song c2track [] (by decide) (by decide) (by decide)

/-- C3 counterexample: normalization is not idempotent.  The title
"The x" normalizes to "the x" because the source drops the lower-case
marker "the " before lower-casing; a second pass then drops it and
yields "x". -/
theorem C3_counterexample :
    normalizeTag (normalizeTag ("The x".toList) FieldKind.title) FieldKind.title ≠
      normalizeTag ("The x".toList) FieldKind.title := by
  decide

/-- C4: the weak scan is a running-minimum selection over the whole list.
First part: a qualifying candidate placed last, whose difference beats
600 and every earlier candidate's difference, is the one selected.
Second part: with two qualifying candidates the smaller difference wins
in either order. -/
theorem C4_running_minimum :
    (∀ (title artist : Str) (song : Song) (ts : List Track) (t : Track),
        tokensAllIn title (cleanTitle t.name) = true →
        albumNotKaraoke t = true →
        Frac.blt (lengthDiff song t) (intF 600) = true →
        (∀ t2 ∈ ts, Frac.blt (lengthDiff song t) (lengthDiff song t2) = true) →
        (weak_match song (ts ++ [t]) title artist).2 = some t.uri) ∧
      ∀ (title artist : Str) (song : Song) (t1 t2 : Track),
        tokensAllIn title (cleanTitle t1.name) = true →
        tokensAllIn title (cleanTitle t2.name) = true →
        albumNotKaraoke t1 = true →
        albumNotKaraoke t2 = true →
        Frac.blt (lengthDiff song t1) (intF 600) = true →
        Frac.blt (lengthDiff song t2) (intF 600) = true →
        Frac.blt (lengthDiff song t2) (lengthDiff song t1) = true →
        (weak_match song [t1, t2] title artist).2 = some t2.uri ∧
          (weak_match song [t2, t1] title artist).2 = some t2.uri := by
  constructor
  · intro title artist song ts t h1 h2 h3 h4
    simp only [weak_match]
    rw [weakLoop_min title artist t h1 h2 ts song (intF 600) h3 h4]
    rfl
  · intro title artist song t1 t2 htm1 htm2 hnk1 hnk2 hb1 hb2 h21
    constructor
    · simp only [weak_match]
      rw [show ([t1, t2] : List Track) = [t1] ++ [t2] from rfl,
        weakLoop_min title artist t2 htm2 hnk2 [t1] song (intF 600) hb2
          (by intro t3 h3; simp at h3; subst h3; exact h21)]
      rfl
    · simp only [weak_match]
      rw [weakLoop_cons_accept title artist song (intF 600) t2 [t1] htm2 hnk2 hb2,
        weakLoop_skip title artist [t1] (setUri song t2.uri) (lengthDiff song t2)
          (by intro t3 h3; simp at h3; subst h3
              rw [lengthDiff_setUri]; exact Frac.blt_asymm h21)]
      rfl

/-- Witness for C4 at differences of 5 and 2 seconds: the 2-second
candidate w4t2 is selected in both orders. -/
theorem C4_witness :
    (weak_match w4song [w4t1, w4t2] ("song".toList) ("x".toList)).2 =
        some ("u2".toList) ∧
      (weak_match w4song [w4t2, w4t1] ("song".toList) ("x".toList)).2 =
        some ("u2".toList) :=
  C4_running_minimum.2 ("song".toList) ("x".toList) w4song w4t1 w4t2 (by decide) (by decide)
    (by decide) (by decide) (by decide) (by decide) (by decide)

/-- C5 counterexample: a first artist that trips the claim's karaoke
guard (its name contains "karaoke") does not leave artist_match at its
default True: line 279 recomputes artist_match from that artist's
cleaned name before the break test runs, so here it is false. -/
theorem C5_counterexample :
    (weakArtistLoop true true ("abc".toList) [⟨"Karaoke Band".toList⟩]).1 = false ∧
      hasSub ("karaoke".toList) (lowerStr ("Karaoke Band".toList)) = true := by
  decide

/-- C5 amended: the default-initialized artist_match survives only for an
empty artist list; for any nonempty artist list the loop's result does
not depend on the initialized value at all, because the first artist's
name is always examined before any break. -/
theorem C5_amended :
    (∀ (b1 b2 nk : Bool) (artist : Str) (a : ArtistRec) (rest : List ArtistRec),
        weakArtistLoop b1 nk artist (a :: rest) = weakArtistLoop b2 nk artist (a :: rest)) ∧
      ∀ (b nk : Bool) (artist : Str), weakArtistLoop b nk artist [] = (b, nk) :=
  ⟨fun _ _ _ _ _ _ => rfl, fun _ _ _ => rfl⟩

/-- C6: strong_match accepts exactly the first candidate, in catalog
order, passing its acceptance test (karaoke guard as implemented plus the
time/album/year disjunction); in particular the concrete candidate
c6track with time_match true, album_match false, year_match false and no
karaoke terms anywhere is accepted. -/
theorem C6_first_accept :
    (∀ (song : Song) (tracks : List Track),
        strong_match song tracks =
          (tracks.find? (strongAccept song)).map (fun t => setUri song t.uri)) ∧
      strong_match c6song [c6track] = some (setUri c6song ("u6".toList)) ∧
      Frac.ble (lengthDiff c6song c6track) (intF 20) = true ∧
      hasSub (lowerStr c6song.album) (lowerStr c6track.album_name) = false ∧
      c6song.year ≠ yearOf c6track.release_date ∧
      albumNotKaraoke c6track = true ∧
      c6track.artists.all (fun a =>
        karaokeWords.all (fun w => ! hasSub w (lowerStr (cleanArtist a.name)))) = true := by
  refine ⟨fun song tracks => strong_match_eq_find song tracks, ?_⟩
  decide

/-- C7 counterexample: the m3u_uris snapshot is taken before the pass and
never refreshed, so two distinct local songs (their old_uri values
differ) are both reassigned to the same remote track uri "t". -/
theorem C7_counterexample :
    ((update_uris [(("P".toList), [c7s1, c7s2])] [(("P".toList), c7pl)]).2.map Song.uri =
        [some (some ("t".toList)), some (some ("t".toList))]) ∧
      (update_uris [(("P".toList), [c7s1, c7s2])] [(("P".toList), c7pl)]).2.map Song.old_uri =
        [some (some ("old1".toList)), some (some ("old2".toList))] := by
  decide

/-- C7 amended: what the exclusion really guarantees: every song the pass
rewrites receives a uri that was not among the playlist's pre-pass song
uris (the m3u_uris snapshot); duplicates among the newly assigned uris
remain possible. -/
theorem C7_amended (name : Str) (songs : List Song) (pl : Playlist) (s : Song)
    (hs : s ∈ (rematchPlaylist name songs pl).2) :
    ∃ u, s.uri = some (some u) ∧ (some u) ∉ songs.filterMap (fun x => x.uri) := by
  simp only [rematchPlaylist, List.mem_map, List.mem_filter] at hs
  rcases hs with ⟨pr, ⟨hin, hflag⟩, rfl⟩
  rcases hin with ⟨s0, _, rfl⟩
  exact rematchSong_flag hflag

/-- Witness for C7 amended at the concrete scenario: the rewritten first
song w7s carries uri "t", which is not among the pre-pass uris. -/
theorem C7_amended_witness :
    ∃ u, w7s.uri = some (some u) ∧
      (some u) ∉ [c7s1, c7s2].filterMap (fun x => x.uri) :=
  C7_amended ("P".toList) [c7s1, c7s2] c7pl w7s (by decide)

/-- C9 counterexample: with the mapping listing A before B, the sequence
of playlist names acted on is B then A, not the mapping's key order. -/
theorem C9_counterexample :
    (update_playlist [(("A".toList), []), (("B".toList), [])] [] 50).map WriteCall.name ≠
      ([(("A".toList), ([] : List Song)), (("B".toList), [])]).map Prod.fst := by
  decide

/-- C9 amended: update_playlist walks reversed(m3u.items()), so the
sequence of playlist names acted on is the reverse of the mapping's key
sequence. -/
theorem C9_amended (m3u : List (Str × List Song)) (spotify : List (Str × Playlist))
    (limit : Nat) :
    (update_playlist m3u spotify limit).map WriteCall.name = (m3u.map Prod.fst).reverse := by
  simp only [update_playlist, List.map_map]
  rw [← List.map_reverse]
  apply List.map_congr_left
  intro p _
  cases h : lookupPl spotify p.1 <;> simp [Function.comp, h]

/-- C10: the fourth, discarded-result weak_match call still mutates the
song: on the concrete scenario the song fails Phase 1 on both result
sets and Phase 2 on the first, yet leaves get_uri with the title-only
candidate's uri; and get_uri never clears a uri that is set. -/
theorem C10_discarded_weak_match_still_resolves :
    (strong_match c10song [c10x] = none ∧
        strong_match c10song [c10y] = none ∧
        (weak_match c10song [c10x] (cleanTitle c10song.title)
          (cleanArtist c10song.artist)).2 = none ∧
        (get_uri c10search c10song).uri = some (some ("y".toList))) ∧
      ∀ (search : Str → List Track) (song : Song) (u : Str),
        song.uri = some (some u) → ∃ v, (get_uri search song).uri = some (some v) :=
  ⟨by decide, get_uri_keeps⟩

/-- Witness for C10's preservation part: a song entering with uri "q"
leaves get_uri with a string uri even when every search returns
nothing. -/
theorem C10_witness :
    ∃ v, (get_uri (fun _ => []) w10song).uri = some (some v) :=
  C10_discarded_weak_match_still_resolves.2 (fun _ => []) w10song ("q".toList) rfl

/-- Concatenating the range-indexed slices of width n recovers the list,
provided the range covers its length. -/
theorem chunk_flatten_aux (n : Nat) :
    ∀ (m : Nat) (l : List (Option Str)), l.length ≤ n * (m + 1) →
      ((List.range (m + 1)).map (fun i => (l.drop (n * i)).take n)).flatten = l := by
  intro m
  induction m with
  | zero =>
    intro l h
    rw [show List.range 1 = [0] from rfl]
    simp only [List.map_cons, List.map_nil, List.flatten_cons,
      List.flatten_nil, Nat.mul_zero, List.drop_zero, List.append_nil]
    exact List.take_of_length_le (by simpa using h)
  | succ m ih =>
    intro l h
    rw [List.range_succ_eq_map]
    simp only [List.map_cons, List.map_map, List.flatten_cons, Nat.mul_zero, List.drop_zero]
    have hmap : ∀ i ∈ List.range (m + 1),
        ((fun i => (l.drop (n * i)).take n) ∘ Nat.succ) i =
          ((l.drop n).drop (n * i)).take n := by
      intro i _
      simp only [Function.comp_apply]
      rw [Nat.mul_succ, List.drop_drop, Nat.add_comm]
    rw [List.map_congr_left hmap]
    rw [ih (l.drop n) (by
      have h2 : n * (m + 1 + 1) = n * (m + 1) + n := Nat.mul_succ n (m + 1)
      simp only [List.length_drop]
      omega)]
    exact List.take_append_drop n l

/-- chunkList at width 50 concatenates back to the original list. -/
theorem chunkList_flatten (uris : List (Option Str)) : (chunkList uris 50).flatten = uris := by
  have h : uris.length ≤ 50 * (uris.length / 50 + 1) := by
    have h1 := Nat.div_add_mod uris.length 50
    have h2 : uris.length % 50 < 50 := Nat.mod_lt _ (by norm_num)
    have h3 : 50 * (uris.length / 50 + 1) = 50 * (uris.length / 50) + 50 := by ring
    omega
  exact chunk_flatten_aux 50 (uris.length / 50) uris h

set_option maxRecDepth 4000 in
/-- C8: the batches update_playlist submits are chunkList groups: each
holds at most 50 identifiers, their concatenation in order is the
original list, and a 120-identifier list yields exactly the sizes 50,
50, 20; the concrete one-playlist create-branch run with 120 resolved
songs posts exactly those three batches. -/
theorem C8_batching :
    (∀ uris : List (Option Str),
        (chunkList uris 50).all (fun c => decide (c.length ≤ 50)) = true ∧
          (chunkList uris 50).flatten = uris) ∧
      (∀ uris : List (Option Str), uris.length = 120 →
          (chunkList uris 50).map List.length = [50, 50, 20]) ∧
      (update_playlist [(("N".toList), List.replicate 120 c8song)] [] 50).map
          (fun c => c.posts.map List.length) = [[50, 50, 20]] := by
  refine ⟨?_, ?_, ?_⟩
  · intro uris
    constructor
    · rw [List.all_eq_true]
      intro c hc
      simp only [chunkList] at hc
      rcases List.mem_map.1 hc with ⟨i, _, rfl⟩
      simp only [decide_eq_true_eq, List.length_take]
      omega
    · exact chunkList_flatten uris
  · intro uris h
    have h3 : uris.length / 50 + 1 = 3 := by rw [h]
    simp only [chunkList, h3]
    rw [show List.range 3 = [0, 1, 2] from rfl]
    simp [List.length_take, List.length_drop, h]
  · decide

/-- Witness for C8's 120-identifier part at a concrete list. -/
theorem C8_witness :
    (chunkList (List.replicate 120 (some ("u".toList))) 50).map List.length = [50, 50, 20] :=
  C8_batching.2.1 (List.replicate 120 (some ("u".toList))) (by simp)

/-! ## Toward conditional idempotence of the normalizer -/

/-- Characters of a matched pattern occur in the text. -/
theorem startsWith_mem :
    ∀ {pat s : Str}, startsWith pat s = true → ∀ c ∈ pat, c ∈ s := by
  intro pat
  induction pat with
  | nil => intro s _ c hc; simp at hc
  | cons p ps ih =>
    intro s h c hc
    cases s with
    | nil => simp [startsWith] at h
    | cons d ds =>
      simp only [startsWith, Bool.and_eq_true, decide_eq_true_eq] at h
      rcases List.mem_cons.1 hc with rfl | hc2
      · exact h.1 ▸ List.mem_cons_self _ _
      · exact List.mem_cons_of_mem _ (ih h.2 c hc2)

/-- Characters of an occurring substring occur in the text. -/
theorem hasSub_mem :
    ∀ {s pat : Str}, hasSub pat s = true → ∀ c ∈ pat, c ∈ s := by
  intro s
  induction s with
  | nil =>
    intro pat h c hc
    cases pat with
    | nil => simp at hc
    | cons p ps => simp [hasSub, startsWith] at h
  | cons d ds ih =>
    intro pat h c hc
    simp only [hasSub, Bool.or_eq_true] at h
    rcases h with h | h
    · exact startsWith_mem h c hc
    · exact List.mem_cons_of_mem _ (ih h c hc)

/-- A pattern holding a character the text lacks does not occur. -/
theorem hasSub_false_of_not_mem {pat s : Str} {c : Char}
    (hc : c ∈ pat) (hs : c ∉ s) : hasSub pat s = false := by
  cases h : hasSub pat s with
  | false => rfl
  | true => exact absurd (hasSub_mem h c hc) hs

/-- Replace is the identity when the pattern does not occur. -/
theorem replaceGo_id (pat rep : Str) :
    ∀ s : Str, hasSub pat s = false → replaceGo pat rep s 0 = s := by
  intro s
  induction s with
  | nil => intro _; rfl
  | cons c cs ih =>
    intro h
    simp only [hasSub, Bool.or_eq_false_iff] at h
    simp only [replaceGo, h.1, Bool.false_eq_true, if_false]
    exact congrArg (List.cons c) (ih h.2)

/-- replaceAll is the identity when the pattern does not occur. -/
theorem replaceAll_id (pat rep s : Str) (h : hasSub pat s = false) :
    replaceAll pat rep s = s := by
  cases pat with
  | nil => rfl
  | cons p ps => exact replaceGo_id (p :: ps) rep s h

/-- The first-occurrence split keeps the whole text when the pattern does
not occur. -/
theorem splitGo_id (p : Char) (ps : Str) :
    ∀ s : Str, hasSub (p :: ps) s = false → splitGo p ps s = s := by
  intro s
  induction s with
  | nil => intro _; rfl
  | cons c cs ih =>
    intro h
    simp only [hasSub, Bool.or_eq_false_iff] at h
    simp only [splitGo, h.1, Bool.false_eq_true, if_false]
    exact congrArg (List.cons c) (ih h.2)

/-- splitFirst is the identity when the pattern does not occur. -/
theorem splitFirst_id (pat s : Str) (h : hasSub pat s = false) :
    splitFirst pat s = s := by
  cases pat with
  | nil => rfl
  | cons p ps => exact splitGo_id p ps s h

/-- Bracket removal is the identity on opener-free text. -/
theorem sbGo_id :
    ∀ s : Str, (∀ c ∈ s, ¬(c = '(' ∨ c = '[')) → sbGo s 0 = s := by
  intro s
  induction s with
  | nil => intro _; rfl
  | cons c cs ih =>
    intro h
    have hc := h c (List.mem_cons_self _ _)
    simp only [sbGo, hc, if_false]
    exact congrArg (List.cons c) (ih (fun d hd => h d (List.mem_cons_of_mem _ hd)))

/-- stripBrackets is the identity on opener-free text. -/
theorem stripBrackets_id (s : Str) (h : ∀ c ∈ s, ¬(c = '(' ∨ c = '[')) :
    stripBrackets s = s :=
  sbGo_id s h

/-- Characters produced by replace come from the text or the
replacement. -/
theorem replaceGo_mem (pat rep : Str) :
    ∀ (s : Str) (k : Nat) (c : Char), c ∈ replaceGo pat rep s k → c ∈ s ∨ c ∈ rep := by
  intro s
  induction s with
  | nil => intro k c hc; simp [replaceGo] at hc
  | cons d ds ih =>
    intro k c hc
    cases k with
    | succ k2 =>
      simp only [replaceGo] at hc
      rcases ih k2 c hc with h | h
      · exact Or.inl (List.mem_cons_of_mem _ h)
      · exact Or.inr h
    | zero =>
      simp only [replaceGo] at hc
      by_cases hsw : startsWith pat (d :: ds) = true
      · rw [if_pos hsw] at hc
        rcases List.mem_append.1 hc with h | h
        · exact Or.inr h
        · rcases ih _ c h with h2 | h2
          · exact Or.inl (List.mem_cons_of_mem _ h2)
          · exact Or.inr h2
      · rw [if_neg hsw] at hc
        rcases List.mem_cons.1 hc with rfl | h
        · exact Or.inl (List.mem_cons_self _ _)
        · rcases ih 0 c h with h2 | h2
          · exact Or.inl (List.mem_cons_of_mem _ h2)
          · exact Or.inr h2

/-- Characters of a replaceAll output come from the text or the
replacement. -/
theorem replaceAll_mem {pat rep s : Str} {c : Char}
    (hc : c ∈ replaceAll pat rep s) : c ∈ s ∨ c ∈ rep := by
  cases pat with
  | nil => exact Or.inl hc
  | cons p ps => exact replaceGo_mem (p :: ps) rep s 0 c hc

/-- Characters of the first-occurrence split come from the text. -/
theorem splitGo_mem (p : Char) (ps : Str) :
    ∀ (s : Str) (c : Char), c ∈ splitGo p ps s → c ∈ s := by
  intro s
  induction s with
  | nil => intro c hc; simp [splitGo] at hc
  | cons d ds ih =>
    intro c hc
    simp only [splitGo] at hc
    by_cases hsw : startsWith (p :: ps) (d :: ds) = true
    · rw [if_pos hsw] at hc
      simp at hc
    · rw [if_neg hsw] at hc
      rcases List.mem_cons.1 hc with rfl | h
      · exact List.mem_cons_self _ _
      · exact List.mem_cons_of_mem _ (ih c h)

/-- Characters of a splitFirst output come from the text. -/
theorem splitFirst_mem {pat s : Str} {c : Char} (hc : c ∈ splitFirst pat s) : c ∈ s := by
  cases pat with
  | nil => exact hc
  | cons p ps => exact splitGo_mem p ps s c hc

/-- Characters surviving bracket removal come from the text. -/
theorem sbGo_mem :
    ∀ (s : Str) (k : Nat) (c : Char), c ∈ sbGo s k → c ∈ s := by
  intro s
  induction s with
  | nil => intro k c hc; simp [sbGo] at hc
  | cons d ds ih =>
    intro k c hc
    cases k with
    | succ k2 =>
      simp only [sbGo] at hc
      exact List.mem_cons_of_mem _ (ih k2 c hc)
    | zero =>
      simp only [sbGo] at hc
      by_cases hd : d = '(' ∨ d = '['
      · rw [if_pos hd] at hc
        rcases htak : takeAfterCloser ds with _ | rest
        · rw [htak] at hc
          rcases List.mem_cons.1 hc with rfl | h
          · exact List.mem_cons_self _ _
          · exact List.mem_cons_of_mem _ (ih 0 c h)
        · rw [htak] at hc
          exact List.mem_cons_of_mem _ (ih _ c hc)
      · rw [if_neg hd] at hc
        rcases List.mem_cons.1 hc with rfl | h
        · exact List.mem_cons_self _ _
        · exact List.mem_cons_of_mem _ (ih 0 c h)

/-- Characters of a stripBrackets output come from the text. -/
theorem stripBrackets_mem {s : Str} {c : Char} (hc : c ∈ stripBrackets s) : c ∈ s :=
  sbGo_mem s 0 c hc

/-- A kept character is not a space. -/
theorem kept_ne_space {c : Char} (h : isKept c = true) : ¬(c = ' ') := by
  intro hc
  rw [hc] at h
  exact absurd h (by decide)

/-- Extending a noDbl string with a safe head. -/
theorem noDbl_cons_of {c : Char} {s : Str} (h : noDbl s = true)
    (hc : c = ' ' → headNS s = true) : noDbl (c :: s) = true := by
  cases s with
  | nil => rfl
  | cons d ds =>
    simp only [noDbl, Bool.and_eq_true, Bool.not_eq_true', Bool.and_eq_false_iff]
    refine ⟨?_, h⟩
    by_cases hcs : c = ' '
    · have := hc hcs
      simp only [headNS, Bool.not_eq_true', decide_eq_false_iff_not] at this
      right
      simpa using this
    · left
      simpa using hcs

/-- The tail of a noDbl string is noDbl. -/
theorem noDbl_tail {c : Char} {s : Str} (h : noDbl (c :: s) = true) : noDbl s = true := by
  cases s with
  | nil => rfl
  | cons d ds =>
    simp only [noDbl, Bool.and_eq_true] at h
    exact h.2

/-- Truncating on the right preserves noDbl. -/
theorem noDbl_append_left : ∀ (s t : Str), noDbl (s ++ t) = true → noDbl s = true := by
  intro s
  induction s with
  | nil => intro t _; rfl
  | cons a s2 ih =>
    intro t h
    cases s2 with
    | nil => rfl
    | cons b r =>
      simp only [List.cons_append, noDbl, Bool.and_eq_true] at h ⊢
      exact ⟨h.1, ih t h.2⟩

/-- dropWhile preserves noDbl. -/
theorem noDbl_dropWhile (p : Char → Bool) :
    ∀ s : Str, noDbl s = true → noDbl (s.dropWhile p) = true := by
  intro s
  induction s with
  | nil => intro _; exact rfl
  | cons c cs ih =>
    intro h
    by_cases hp : p c = true
    · rw [List.dropWhile_cons_of_pos hp]
      exact ih (noDbl_tail h)
    · rw [List.dropWhile_cons_of_neg hp]
      exact h

/-- trimEnd returns a prefix of its argument. -/
theorem trimEnd_prefix : ∀ s : Str, ∃ t, s = trimEnd s ++ t := by
  intro s
  induction s with
  | nil => exact ⟨[], rfl⟩
  | cons c cs ih =>
    rcases ih with ⟨t, ht⟩
    cases h : trimEnd cs with
    | nil =>
      by_cases hc : c = ' '
      · refine ⟨c :: cs, ?_⟩
        simp [trimEnd, h, hc]
      · refine ⟨cs, ?_⟩
        simp [trimEnd, h, hc]
    | cons d ds =>
      refine ⟨t, ?_⟩
      simp only [trimEnd, h]
      rw [h] at ht
      simpa using ht

/-- trimEnd preserves noDbl. -/
theorem noDbl_trimEnd {s : Str} (h : noDbl s = true) : noDbl (trimEnd s) = true := by
  rcases trimEnd_prefix s with ⟨t, ht⟩
  exact noDbl_append_left _ t (ht ▸ h)

/-- Characters of trimEnd output come from the text. -/
theorem trimEnd_mem {s : Str} {c : Char} (hc : c ∈ trimEnd s) : c ∈ s := by
  rcases trimEnd_prefix s with ⟨t, ht⟩
  rw [ht]
  exact List.mem_append.2 (Or.inl hc)

/-- Characters of strip output come from the text. -/
theorem strip_mem {s : Str} {c : Char} (hc : c ∈ strip s) : c ∈ s := by
  have h1 := trimEnd_mem hc
  exact (List.dropWhile_suffix (fun d => d = ' ')).subset h1

/-- strip preserves noDbl. -/
theorem noDbl_strip {s : Str} (h : noDbl s = true) : noDbl (strip s) = true :=
  noDbl_trimEnd (noDbl_dropWhile _ s h)

/-- Collapse output characters are kept or spaces. -/
theorem collapseGo_kept : ∀ (s : Str) (b : Bool) (c : Char),
    c ∈ collapseGo b s → isKept c = true ∨ c = ' ' := by
  intro s
  induction s with
  | nil => intro b c hc; simp [collapseGo] at hc
  | cons d ds ih =>
    intro b c hc
    simp only [collapseGo] at hc
    by_cases hd : isKept d = true
    · rw [if_pos hd] at hc
      rcases List.mem_cons.1 hc with rfl | h
      · exact Or.inl hd
      · exact ih false c h
    · rw [if_neg hd] at hc
      cases b with
      | true => exact ih true c hc
      | false =>
        rcases List.mem_cons.1 hc with rfl | h
        · exact Or.inr rfl
        · exact ih true c h

/-- Collapse output characters come from the text or are spaces. -/
theorem collapseGo_mem : ∀ (s : Str) (b : Bool) (c : Char),
    c ∈ collapseGo b s → c ∈ s ∨ c = ' ' := by
  intro s
  induction s with
  | nil => intro b c hc; simp [collapseGo] at hc
  | cons d ds ih =>
    intro b c hc
    simp only [collapseGo] at hc
    by_cases hd : isKept d = true
    · rw [if_pos hd] at hc
      rcases List.mem_cons.1 hc with rfl | h
      · exact Or.inl (List.mem_cons_self _ _)
      · rcases ih false c h with h2 | h2
        · exact Or.inl (List.mem_cons_of_mem _ h2)
        · exact Or.inr h2
    · rw [if_neg hd] at hc
      cases b with
      | true =>
        rcases ih true c hc with h2 | h2
        · exact Or.inl (List.mem_cons_of_mem _ h2)
        · exact Or.inr h2
      | false =>
        rcases List.mem_cons.1 hc with rfl | h
        · exact Or.inr rfl
        · rcases ih true c h with h2 | h2
          · exact Or.inl (List.mem_cons_of_mem _ h2)
          · exact Or.inr h2

/-- In run-skipping mode the next emitted character is kept. -/
theorem collapseGo_true_head : ∀ s : Str,
    collapseGo true s = [] ∨
      ∃ d ds, collapseGo true s = d :: ds ∧ isKept d = true := by
  intro s
  induction s with
  | nil => exact Or.inl rfl
  | cons c cs ih =>
    by_cases hc : isKept c = true
    · exact Or.inr ⟨c, collapseGo false cs, by simp [collapseGo, hc], hc⟩
    · have : collapseGo true (c :: cs) = collapseGo true cs := by
        simp [collapseGo, hc]
      rw [this]
      exact ih

/-- Collapse output has no two adjacent spaces. -/
theorem collapseGo_noDbl : ∀ (s : Str) (b : Bool), noDbl (collapseGo b s) = true := by
  intro s
  induction s with
  | nil => intro b; rfl
  | cons c cs ih =>
    intro b
    by_cases hc : isKept c = true
    · have h : collapseGo b (c :: cs) = c :: collapseGo false cs := by
        simp [collapseGo, hc]
      rw [h]
      exact noDbl_cons_of (ih false) (fun hsp => absurd hsp (kept_ne_space hc))
    · cases b with
      | true =>
        have h : collapseGo true (c :: cs) = collapseGo true cs := by
          simp [collapseGo, hc]
        rw [h]
        exact ih true
      | false =>
        have h : collapseGo false (c :: cs) = ' ' :: collapseGo true cs := by
          simp [collapseGo, hc]
        rw [h]
        refine noDbl_cons_of (ih true) (fun _ => ?_)
        rcases collapseGo_true_head cs with h2 | ⟨d, ds, h2, hd⟩
        · rw [h2]; rfl
        · rw [h2]
          simp only [headNS, Bool.not_eq_true', decide_eq_false_iff_not]
          exact kept_ne_space hd

/-- Collapse is the identity on kept-or-space strings with no double
spaces; in run-skipping mode the head must additionally not be a
space. -/
theorem collapseGo_id : ∀ s : Str, keptOK s → noDbl s = true →
    collapseGo false s = s ∧ (headNS s = true → collapseGo true s = s) := by
  intro s
  induction s with
  | nil => exact fun _ _ => ⟨rfl, fun _ => rfl⟩
  | cons c cs ih =>
    intro hk hd
    have ih2 := ih (fun d hdm => hk d (List.mem_cons_of_mem _ hdm)) (noDbl_tail hd)
    constructor
    · by_cases hc : isKept c = true
      · have h : collapseGo false (c :: cs) = c :: collapseGo false cs := by
          simp [collapseGo, hc]
        rw [h, ih2.1]
      · have hcs : c = ' ' := by
          rcases hk c (List.mem_cons_self _ _) with h2 | h2
          · exact absurd h2 hc
          · exact h2
        have h : collapseGo false (c :: cs) = ' ' :: collapseGo true cs := by
          simp [collapseGo, hc]
        have hhead : headNS cs = true := by
          cases cs with
          | nil => rfl
          | cons d ds =>
            have hdne : ¬(d = ' ') := by
              intro hds
              rw [hcs, hds] at hd
              simp [noDbl] at hd
            simp only [headNS, Bool.not_eq_true', decide_eq_false_iff_not]
            exact hdne
        rw [h, ih2.2 hhead, hcs]
    · intro hh
      have hc : isKept c = true := by
        simp only [headNS, Bool.not_eq_true', decide_eq_false_iff_not] at hh
        rcases hk c (List.mem_cons_self _ _) with h2 | h2
        · exact h2
        · exact absurd h2 hh
      have h : collapseGo true (c :: cs) = c :: collapseGo false cs := by
        simp [collapseGo, hc]
      rw [h, ih2.1]

/-- collapse is the identity on its own stripped outputs. -/
theorem collapse_id {s : Str} (hk : keptOK s) (hd : noDbl s = true) : collapse s = s :=
  (collapseGo_id s hk hd).1

/-- Extending trimEnd below a nonempty result. -/
theorem trimEnd_cons_ne {c : Char} {cs r : Str} (h : trimEnd cs = r) (hne : r ≠ []) :
    trimEnd (c :: cs) = c :: r := by
  cases r with
  | nil => exact absurd rfl hne
  | cons d ds =>
    simp only [trimEnd, h]

/-- trimEnd is idempotent. -/
theorem trimEnd_idem : ∀ s : Str, trimEnd (trimEnd s) = trimEnd s := by
  intro s
  induction s with
  | nil => rfl
  | cons c cs ih =>
    cases h : trimEnd cs with
    | nil =>
      by_cases hc : c = ' '
      · simp [trimEnd, h, hc]
      · simp [trimEnd, h, hc]
    | cons d ds =>
      have h2 : trimEnd (c :: cs) = c :: d :: ds := trimEnd_cons_ne h (by simp)
      rw [h2]
      have h3 : trimEnd (d :: ds) = d :: ds := by
        rw [← h, ih]
      exact trimEnd_cons_ne h3 (by simp)

/-- The head of a dropWhile output fails the predicate. -/
theorem dropWhile_head_false (p : Char → Bool) :
    ∀ (s : Str) (d : Char) (ds : Str), s.dropWhile p = d :: ds → p d = false := by
  intro s
  induction s with
  | nil => intro d ds h; simp at h
  | cons c cs ih =>
    intro d ds h
    by_cases hp : p c = true
    · rw [List.dropWhile_cons_of_pos hp] at h
      exact ih d ds h
    · rw [List.dropWhile_cons_of_neg hp] at h
      cases h
      simpa using hp

/-- strip is idempotent. -/
theorem strip_idem (s : Str) : strip (strip s) = strip s := by
  simp only [strip]
  have hdw : ((trimEnd (s.dropWhile fun c => c = ' ')).dropWhile fun c => c = ' ') =
      trimEnd (s.dropWhile fun c => c = ' ') := by
    cases h : trimEnd (s.dropWhile fun c => c = ' ') with
    | nil => rfl
    | cons d ds =>
      rcases trimEnd_prefix (s.dropWhile fun c => c = ' ') with ⟨t, ht⟩
      rw [h] at ht
      have hp : decide (d = ' ') = false := by
        apply dropWhile_head_false (fun c => decide (c = ' ')) s d (ds ++ t)
        simpa using ht
      rw [List.dropWhile_cons_of_neg (by simpa using hp)]
  rw [hdw, trimEnd_idem]

/-- Reading back the code point of a valid character. -/
theorem charOfNat_toNat (n : Nat) (h : n.isValidChar) : (Char.ofNat n).toNat = n := by
  unfold Char.ofNat
  rw [dif_pos h]
  rfl

/-- Lower-casing a character twice is the same as once. -/
theorem lowerChar_idem (c : Char) : lowerChar (lowerChar c) = lowerChar c := by
  by_cases h : 65 ≤ c.toNat ∧ c.toNat ≤ 90
  · have hv : (c.toNat + 32).isValidChar := Or.inl (by omega)
    have h1 : lowerChar c = Char.ofNat (c.toNat + 32) := by
      simp only [lowerChar]
      rw [if_pos h]
    rw [h1]
    simp only [lowerChar]
    rw [charOfNat_toNat _ hv, if_neg (by omega)]
  · have h1 : lowerChar c = c := by
      simp only [lowerChar]
      rw [if_neg h]
    rw [h1, h1]

/-- The space character is fixed by lower-casing. -/
theorem lowerChar_space : lowerChar ' ' = ' ' := by decide

/-- A fully lower-cased string is lower-case closed. -/
theorem lowerStr_lc (s : Str) : lcOK (lowerStr s) := by
  intro c hc
  rcases List.mem_map.1 hc with ⟨d, _, rfl⟩
  exact lowerChar_idem d

/-- Lower-casing is the identity on lower-case closed strings. -/
theorem lowerStr_id_of_lc {s : Str} (h : lcOK s) : lowerStr s = s := by
  have h2 : s.map lowerChar = s.map id := List.map_congr_left (fun a ha => h a ha)
  simpa [lowerStr] using h2

/-- replaceAll preserves lower-case closure when the replacement is
lower-case closed. -/
theorem lcOK_replaceAll {pat rep s : Str} (hs : lcOK s) (hr : lcOK rep) :
    lcOK (replaceAll pat rep s) :=
  fun c hc => (replaceAll_mem hc).elim (hs c) (hr c)

/-- splitFirst preserves lower-case closure. -/
theorem lcOK_splitFirst {pat s : Str} (hs : lcOK s) : lcOK (splitFirst pat s) :=
  fun c hc => hs c (splitFirst_mem hc)

/-- stripBrackets preserves lower-case closure. -/
theorem lcOK_stripBrackets {s : Str} (hs : lcOK s) : lcOK (stripBrackets s) :=
  fun c hc => hs c (stripBrackets_mem hc)

/-- collapse preserves lower-case closure. -/
theorem lcOK_collapse {s : Str} (hs : lcOK s) : lcOK (collapse s) := by
  intro c hc
  rcases collapseGo_mem s false c hc with h | h
  · exact hs c h
  · rw [h]
    exact lowerChar_space

/-- strip preserves lower-case closure. -/
theorem lcOK_strip {s : Str} (hs : lcOK s) : lcOK (strip s) :=
  fun c hc => hs c (strip_mem hc)

/-- The empty replacement is lower-case closed. -/
theorem lcOK_nil : lcOK ([] : Str) :=
  fun c hc => absurd hc (List.not_mem_nil c)

/-- The one-space replacement is lower-case closed. -/
theorem lcOK_space : lcOK (" ".toList) := by
  intro c hc
  simp only [List.mem_singleton, String.toList] at hc
  rw [hc]
  exact lowerChar_space

/-- Normalizer keys are kept-or-space strings. -/
theorem keptOK_key (y : Str) : keptOK (strip (collapse y)) :=
  fun c hc => collapseGo_kept y false c (strip_mem hc)

/-- Normalizer keys have no two adjacent spaces. -/
theorem noDbl_key (y : Str) : noDbl (strip (collapse y)) = true :=
  noDbl_strip (collapseGo_noDbl y false)

/-- A pattern holding a character outside the key alphabet cannot occur
in a key. -/
theorem hasSub_false_of_keptOK {pat s : Str} {c : Char} (hc : c ∈ pat)
    (h1 : isKept c = false) (h2 : ¬(c = ' ')) (hk : keptOK s) :
    hasSub pat s = false := by
  apply hasSub_false_of_not_mem hc
  intro hmem
  rcases hk c hmem with h | h
  · rw [h1] at h
    exact Bool.noConfusion h
  · exact h2 h

/-- Keys contain no bracket openers, so bracket removal fixes them. -/
theorem stripBrackets_id_of_keptOK {s : Str} (hk : keptOK s) : stripBrackets s = s := by
  apply stripBrackets_id
  intro c hc hor
  rcases hk c hc with h | h
  · rcases hor with rfl | rfl
    · exact absurd h (by decide)
    · exact absurd h (by decide)
  · rcases hor with rfl | rfl <;> exact absurd h (by decide)

/-- The shape of a title key: a stripped collapse of a lower-case closed
string. -/
theorem cleanTitle_shape (x : Str) :
    ∃ T, cleanTitle x = strip (collapse T) ∧ lcOK T := by
  refine ⟨splitFirst (" / ".toList) (splitFirst ("ft.".toList) (splitFirst ("feat.".toList)
    (replaceAll ("featuring".toList) [] (lowerStr (replaceAll ("the ".toList) (" ".toList)
      (replaceAll ("part ".toList) (" ".toList) (stripBrackets x))))))), rfl, ?_⟩
  exact lcOK_splitFirst (lcOK_splitFirst (lcOK_splitFirst
    (lcOK_replaceAll (lowerStr_lc _) lcOK_nil)))

/-- The shape of an artist key. -/
theorem cleanArtist_shape (x : Str) :
    ∃ T, cleanArtist x = strip (collapse T) ∧ lcOK T := by
  refine ⟨splitFirst (" vs".toList) (splitFirst (" and ".toList) (splitFirst ("&".toList)
    (splitFirst (" ft.".toList) (splitFirst (" feat.".toList)
      (replaceAll (" featuring".toList) [] (lowerStr (replaceAll ("the ".toList)
        (" ".toList) (stripBrackets x)))))))), rfl, ?_⟩
  exact lcOK_splitFirst (lcOK_splitFirst (lcOK_splitFirst (lcOK_splitFirst
    (lcOK_splitFirst (lcOK_replaceAll (lowerStr_lc _) lcOK_nil)))))

/-- The shape of an album key. -/
theorem cleanAlbum_shape (x : Str) :
    ∃ T, cleanAlbum x = strip (collapse T) ∧ lcOK T := by
  refine ⟨replaceAll ("the ".toList) (" ".toList) (stripBrackets
    (replaceAll ("ep".toList) [] (lowerStr (splitFirst ("-".toList) x)))), rfl, ?_⟩
  exact lcOK_replaceAll (lcOK_stripBrackets
    (lcOK_replaceAll (lowerStr_lc _) lcOK_nil)) lcOK_space

/-- Title normalization is idempotent when the key carries none of the
case-sensitively removed title markers. -/
theorem cleanTitle_idem (x : Str)
    (h1 : hasSub ("part ".toList) (cleanTitle x) = false)
    (h2 : hasSub ("the ".toList) (cleanTitle x) = false)
    (h3 : hasSub ("featuring".toList) (cleanTitle x) = false) :
    cleanTitle (cleanTitle x) = cleanTitle x := by
  rcases cleanTitle_shape x with ⟨T, hT, hTlc⟩
  have hk : keptOK (cleanTitle x) := hT ▸ keptOK_key T
  have hnd : noDbl (cleanTitle x) = true := hT ▸ noDbl_key T
  have hlc : lcOK (cleanTitle x) := by
    rw [hT]
    exact lcOK_strip (lcOK_collapse hTlc)
  have hfeat : hasSub ("feat.".toList) (cleanTitle x) = false :=
    hasSub_false_of_keptOK (c := '.') (by decide) (by decide) (by decide) hk
  have hft : hasSub ("ft.".toList) (cleanTitle x) = false :=
    hasSub_false_of_keptOK (c := '.') (by decide) (by decide) (by decide) hk
  have hsl : hasSub (" / ".toList) (cleanTitle x) = false :=
    hasSub_false_of_keptOK (c := '/') (by decide) (by decide) (by decide) hk
  show strip (collapse (splitFirst (" / ".toList) (splitFirst ("ft.".toList)
    (splitFirst ("feat.".toList) (replaceAll ("featuring".toList) []
      (lowerStr (replaceAll ("the ".toList) (" ".toList)
        (replaceAll ("part ".toList) (" ".toList) (stripBrackets (cleanTitle x)))))))))) =
    cleanTitle x
  rw [stripBrackets_id_of_keptOK hk, replaceAll_id _ _ _ h1, replaceAll_id _ _ _ h2,
    lowerStr_id_of_lc hlc, replaceAll_id _ _ _ h3, splitFirst_id _ _ hfeat,
    splitFirst_id _ _ hft, splitFirst_id _ _ hsl, collapse_id hk hnd, hT, strip_idem]

/-- Artist normalization is idempotent when the key carries none of the
case-sensitively removed artist markers. -/
theorem cleanArtist_idem (x : Str)
    (h1 : hasSub ("the ".toList) (cleanArtist x) = false)
    (h2 : hasSub (" featuring".toList) (cleanArtist x) = false)
    (h3 : hasSub (" and ".toList) (cleanArtist x) = false)
    (h4 : hasSub (" vs".toList) (cleanArtist x) = false) :
    cleanArtist (cleanArtist x) = cleanArtist x := by
  rcases cleanArtist_shape x with ⟨T, hT, hTlc⟩
  have hk : keptOK (cleanArtist x) := hT ▸ keptOK_key T
  have hnd : noDbl (cleanArtist x) = true := hT ▸ noDbl_key T
  have hlc : lcOK (cleanArtist x) := by
    rw [hT]
    exact lcOK_strip (lcOK_collapse hTlc)
  have hfeat : hasSub (" feat.".toList) (cleanArtist x) = false :=
    hasSub_false_of_keptOK (c := '.') (by decide) (by decide) (by decide) hk
  have hft : hasSub (" ft.".toList) (cleanArtist x) = false :=
    hasSub_false_of_keptOK (c := '.') (by decide) (by decide) (by decide) hk
  have hamp : hasSub ("&".toList) (cleanArtist x) = false :=
    hasSub_false_of_keptOK (c := '&') (by decide) (by decide) (by decide) hk
  show strip (collapse (splitFirst (" vs".toList) (splitFirst (" and ".toList)
    (splitFirst ("&".toList) (splitFirst (" ft.".toList) (splitFirst (" feat.".toList)
      (replaceAll (" featuring".toList) [] (lowerStr (replaceAll ("the ".toList)
        (" ".toList) (stripBrackets (cleanArtist x))))))))))) = cleanArtist x
  rw [stripBrackets_id_of_keptOK hk, replaceAll_id _ _ _ h1, lowerStr_id_of_lc hlc,
    replaceAll_id _ _ _ h2, splitFirst_id _ _ hfeat, splitFirst_id _ _ hft,
    splitFirst_id _ _ hamp, splitFirst_id _ _ h3, splitFirst_id _ _ h4,
    collapse_id hk hnd, hT, strip_idem]

/-- Album normalization is idempotent when the key carries none of the
album markers. -/
theorem cleanAlbum_idem (x : Str)
    (h1 : hasSub ("ep".toList) (cleanAlbum x) = false)
    (h2 : hasSub ("the ".toList) (cleanAlbum x) = false) :
    cleanAlbum (cleanAlbum x) = cleanAlbum x := by
  rcases cleanAlbum_shape x with ⟨T, hT, hTlc⟩
  have hk : keptOK (cleanAlbum x) := hT ▸ keptOK_key T
  have hnd : noDbl (cleanAlbum x) = true := hT ▸ noDbl_key T
  have hlc : lcOK (cleanAlbum x) := by
    rw [hT]
    exact lcOK_strip (lcOK_collapse hTlc)
  have hdash : hasSub ("-".toList) (cleanAlbum x) = false :=
    hasSub_false_of_keptOK (c := '-') (by decide) (by decide) (by decide) hk
  show strip (collapse (replaceAll ("the ".toList) (" ".toList) (stripBrackets
    (replaceAll ("ep".toList) [] (lowerStr (splitFirst ("-".toList) (cleanAlbum x))))))) =
    cleanAlbum x
  rw [splitFirst_id _ _ hdash, lowerStr_id_of_lc hlc, replaceAll_id _ _ _ h1,
    stripBrackets_id_of_keptOK hk, replaceAll_id _ _ _ h2, collapse_id hk hnd, hT,
    strip_idem]

/-- C3 amended: normalization is deterministic but idempotent only
conditionally: for every input whose normalized key contains none of the
field's marker substrings (for title: "part ", "the ", "featuring"; for
artist: "the ", " featuring", " and ", " vs"; for album: "ep", "the "),
a second normalization pass returns the key unchanged.  Unconditional
idempotence fails, see the counterexample. -/
theorem C3_amended (x : Str) (k : FieldKind)
    (h : (markerWords k).all (fun m => ! hasSub m (normalizeTag x k)) = true) :
    normalizeTag (normalizeTag x k) k = normalizeTag x k := by
  cases k with
  | title =>
    simp only [markerWords, normalizeTag, List.all_cons, List.all_nil, Bool.and_eq_true,
      Bool.not_eq_true', and_true] at h ⊢
    exact cleanTitle_idem x h.1 h.2.1 h.2.2
  | artist =>
    simp only [markerWords, normalizeTag, List.all_cons, List.all_nil, Bool.and_eq_true,
      Bool.not_eq_true', and_true] at h ⊢
    exact cleanArtist_idem x h.1 h.2.1 h.2.2.1 h.2.2.2
  | album =>
    simp only [markerWords, normalizeTag, List.all_cons, List.all_nil, Bool.and_eq_true,
      Bool.not_eq_true', and_true] at h ⊢
    exact cleanAlbum_idem x h.1 h.2

/-- Witness for C3 amended: the title key of "Hello World" is marker
free, and a second pass fixes it. -/
theorem C3_amended_witness :
    normalizeTag (normalizeTag ("Hello World".toList) FieldKind.title) FieldKind.title =
      normalizeTag ("Hello World".toList) FieldKind.title :=
  C3_amended ("Hello World".toList) FieldKind.title (by decide)
